import Mathlib

/-!
Verification of the crill seqlock (include/crill/seqlock_object.h).

The C++ class seqlock_object wraps a trivially copyable value T behind a
sequence counter (std::atomic of std::size_t, named seq) and a byte storage
of sizeof(T) atomic bytes. We embed the value type T by its byte image: a
value of T is a list of bytes of length sz = sizeof(T). The counter is a
natural number reduced modulo W = 2 to the 64, the width of std::size_t.

Two levels of semantics are given, both translated from the source:
the sequential semantics (each member function runs without interference,
so all of its atomic accesses see the same state), and a micro-step trace
semantics in which the writer's store is decomposed into its individual
atomic operations (counter store, per-byte stores, counter store) so that a
reader's try_load can observe its three inputs, the first counter load, the
per-byte copies, and the second counter load, at distinct instants of the
writer's execution.
-/

namespace Crill

/-- std::size_t modelled as arithmetic modulo two to the 64. -/
def W : Nat := 2 ^ 64

/-- The state of one seqlock_object: the sequence counter seq and the byte
storage data (the atomic byte array of the inner atomic_storage_t). -/
structure Seqlock where
  seq : Nat
  data : List Nat
deriving Repr, DecidableEq

/-- The byte copy loop, byte i taken from an arbitrary source function so
that the trace semantics can read each byte at its own instant: after n
steps the bytes 0..n-1 of dst have been overwritten with src 0..src (n-1),
exactly the loop for i in 0..n-1 do dst.set i (src i). -/
def copyLoopF (src : Nat → Nat) (dst : List Nat) : Nat → List Nat
  | 0 => dst
  | n+1 => (copyLoopF src dst n).set n (src n)

/-- The byte copy loop reading from a fixed source list, as in the per-byte
branches of memcpy_in and memcpy_out. -/
def copyLoop (src dst : List Nat) (n : Nat) : List Nat :=
  copyLoopF (fun i => src.getD i 0) dst n

/-- atomic_storage_t::memcpy_in: for i in 0..sizeof T, store byte i of
value_in into data[i]; returns the new storage contents. -/
def memcpy_in (sz : Nat) (data value_in : List Nat) : List Nat :=
  copyLoop value_in data sz

/-- atomic_storage_t::memcpy_out: for i in 0..sizeof T, load data[i] into
byte i of value_out. The C++ function is declared with return type T, but
both preprocessor branches fall off the end without a return statement, so
the declared return value is never produced: the first component is the
updated value_out, the second component models the value produced by a
return statement, and is none on every path. -/
def memcpy_out (sz : Nat) (data value_out : List Nat) :
    List Nat × Option (List Nat) :=
  (copyLoop data value_out sz, none)

/-- seqlock_object::store, sequential semantics: load the counter, store
counter + 1, copy the bytes in, store counter + 2 (all arithmetic modulo W). -/
def store (sz : Nat) (s : Seqlock) (t : List Nat) : Seqlock :=
  let old_seq := s.seq
  let s1 : Seqlock := { s with seq := (old_seq + 1) % W }
  let s2 : Seqlock := { s1 with data := memcpy_in sz s1.data t }
  { s2 with seq := (old_seq + 2) % W }

/-- seqlock_object::try_load with its three observations already resolved:
seq1 is the first counter load, mo the result of memcpy_out, seq2 the second
counter load, t the caller's slot. If seq1 is odd, return false with the
slot untouched (memcpy_out is never invoked on that path); otherwise the
slot holds the copied bytes and the result is true iff seq1 = seq2. -/
def try_load_steps (seq1 : Nat) (mo : List Nat × Option (List Nat))
    (seq2 : Nat) (t : List Nat) : Bool × List Nat :=
  if seq1 % 2 ≠ 0 then (false, t)
  else (decide (seq1 = seq2), mo.1)

/-- seqlock_object::try_load run without interference: all three
observations see the same state s. -/
def try_load (sz : Nat) (s : Seqlock) (t : List Nat) : Bool × List Nat :=
  try_load_steps s.seq (memcpy_out sz s.data t) s.seq t

/-- seqlock_object::load: declare t, retry try_load t until it succeeds,
return t. The spin loop is given explicit fuel; none models a loop that has
not yet succeeded within the fuel. The local t starts uninitialized in the
C++ code; we start it as sz zero bytes (on success the result does not
depend on it). -/
def load (sz : Nat) : Nat → Seqlock → Option (List Nat)
  | 0, _ => none
  | fuel+1, s =>
    let r := try_load sz s (List.replicate sz 0)
    if r.1 then some r.2 else load sz fuel s

/-- The seqlock_object constructors: a fresh object (counter zero, zeroed
byte storage) on which store t is invoked. The default constructor is the
value constructor applied to the byte image of a default constructed T. -/
def seqlock_object (sz : Nat) (t : List Nat) : Seqlock :=
  store sz { seq := 0, data := List.replicate sz 0 } t

/-- States reachable through completed operations: construction followed by
any number of completed stores (load and try_load do not mutate the state). -/
inductive Reachable (sz : Nat) : Seqlock → Prop
  | construct (t : List Nat) (ht : t.length = sz) :
      Reachable sz (seqlock_object sz t)
  | store_step (s : Seqlock) (t : List Nat) (ht : t.length = sz) :
      Reachable sz s → Reachable sz (store sz s t)

/-! ### Basic lemmas about the byte copy loop -/

lemma copyLoopF_length (src : Nat → Nat) (dst : List Nat) (n : Nat) :
    (copyLoopF src dst n).length = dst.length := by
  induction n with
  | zero => rfl
  | succ n ih => simp [copyLoopF, List.length_set, ih]

lemma copyLoopF_getElem?_ge (src : Nat → Nat) (dst : List Nat) {n j : Nat}
    (h : n ≤ j) : (copyLoopF src dst n)[j]? = dst[j]? := by
  induction n with
  | zero => rfl
  | succ n ih =>
    have hne : n ≠ j := by omega
    simp only [copyLoopF, List.getElem?_set_ne hne]
    exact ih (by omega)

lemma copyLoopF_getElem?_lt (src : Nat → Nat) (dst : List Nat) {n j : Nat}
    (h : j < n) (hj : j < dst.length) :
    (copyLoopF src dst n)[j]? = some (src j) := by
  induction n with
  | zero => omega
  | succ n ih =>
    by_cases hjn : j = n
    · subst hjn
      have hlen : j < (copyLoopF src dst j).length := by
        rw [copyLoopF_length]; exact hj
      simpa [copyLoopF] using List.getElem?_set_eq_of_lt (src j) hlen
    · have hne : n ≠ j := fun h => hjn h.symm
      simp only [copyLoopF, List.getElem?_set_ne hne]
      exact ih (by omega)

/-- A full copy pass writes exactly the list v whenever the source function
agrees with v and lengths match. -/
lemma copyLoopF_eq_of_agree (src : Nat → Nat) (dst v : List Nat) (n : Nat)
    (hd : dst.length = n) (hv : v.length = n)
    (hsrc : ∀ j, j < n → src j = v.getD j 0) :
    copyLoopF src dst n = v := by
  apply List.ext_getElem?
  intro j
  by_cases hj : j < n
  · rw [copyLoopF_getElem?_lt src dst hj (by omega), hsrc j hj,
      List.getD_eq_getElem v 0 (by omega), List.getElem?_eq_getElem (by omega)]
  · rw [copyLoopF_getElem?_ge src dst (by omega)]
    have h1 : dst[j]? = none := by
      rw [List.getElem?_eq_none_iff]; omega
    have h2 : v[j]? = none := by
      rw [List.getElem?_eq_none_iff]; omega
    rw [h1, h2]

lemma copyLoop_eq (src dst : List Nat) (n : Nat)
    (hd : dst.length = n) (hs : src.length = n) :
    copyLoop src dst n = src :=
  copyLoopF_eq_of_agree _ dst src n hd hs (fun _ _ => rfl)

/-! ### Sequential semantics lemmas -/

lemma memcpy_in_eq (sz : Nat) (data t : List Nat)
    (hd : data.length = sz) (ht : t.length = sz) :
    memcpy_in sz data t = t :=
  copyLoop_eq t data sz hd ht

lemma store_spec (sz : Nat) (s : Seqlock) (t : List Nat)
    (hd : s.data.length = sz) (ht : t.length = sz) :
    store sz s t = { seq := (s.seq + 2) % W, data := t } := by
  simp [store, memcpy_in_eq sz s.data t hd ht]

lemma store_seq (sz : Nat) (s : Seqlock) (t : List Nat) :
    (store sz s t).seq = (s.seq + 2) % W := rfl

/-- Adding 2 modulo W preserves parity (W is even). -/
lemma add_two_mod_W_parity (a : Nat) : (a + 2) % W % 2 = a % 2 := by
  rw [Nat.mod_mod_of_dvd _ (by norm_num [W]), Nat.add_mod_right]

lemma reachable_invariant (sz : Nat) (s : Seqlock) (h : Reachable sz s) :
    s.seq % 2 = 0 ∧ s.data.length = sz := by
  induction h with
  | construct t ht =>
    rw [seqlock_object, store_spec sz _ t (by simp) ht]
    refine ⟨?_, ht⟩
    simp [add_two_mod_W_parity 0]
  | store_step s t ht _ ih =>
    rw [store_spec sz s t ih.2 ht]
    exact ⟨by simpa [add_two_mod_W_parity] using ih.1, ht⟩

lemma try_load_even (sz : Nat) (s : Seqlock) (t : List Nat)
    (h : s.seq % 2 = 0) :
    try_load sz s t = (true, copyLoop s.data t sz) := by
  simp [try_load, try_load_steps, memcpy_out, h]

lemma try_load_odd (sz : Nat) (s : Seqlock) (t : List Nat)
    (h : s.seq % 2 = 1) :
    try_load sz s t = (false, t) := by
  simp [try_load, try_load_steps, h]

lemma load_one (sz : Nat) (s : Seqlock)
    (hpar : s.seq % 2 = 0) (hd : s.data.length = sz) :
    load sz 1 s = some s.data := by
  have hcopy : copyLoop s.data (List.replicate sz 0) sz = s.data :=
    copyLoop_eq s.data _ sz (by simp) hd
  simp [load, try_load_even sz s _ hpar, hcopy]

/-! ### Micro-step trace semantics

The writer's store is decomposed into its individual atomic operations so
that a concurrent reader's observations can be placed between them. -/

/-- One atomic micro-operation of the writer: a store to the sequence
counter, or a store to one byte of the storage. -/
inductive WOp where
  | wseq (n : Nat)
  | wbyte (i : Nat) (b : Nat)
deriving Repr, DecidableEq

/-- Effect of one writer micro-operation on the shared state. -/
def applyOp (s : Seqlock) : WOp → Seqlock
  | .wseq n => { s with seq := n }
  | .wbyte i b => { s with data := s.data.set i b }

def runOps (s : Seqlock) (ops : List WOp) : Seqlock :=
  ops.foldl applyOp s

/-- The per-byte stores performed by memcpy_in for value t. -/
def byteOps (sz : Nat) (t : List Nat) : List WOp :=
  (List.range sz).map fun i => WOp.wbyte i (t.getD i 0)

/-- The micro-operations of one store call whose initial counter load read
old_seq: store old_seq + 1, the per-byte copy, store old_seq + 2. -/
def storeOps (sz : Nat) (old_seq : Nat) (t : List Nat) : List WOp :=
  WOp.wseq ((old_seq + 1) % W) ::
    (byteOps sz t ++ [WOp.wseq ((old_seq + 2) % W)])

/-- The micro-operations of a writer performing the stores vs in order,
starting from counter value startSeq (with no reader interference the
counter load of each store reads the value left by the previous one). -/
def writerOps (sz : Nat) (startSeq : Nat) : List (List Nat) → List WOp
  | [] => []
  | t :: ts => storeOps sz startSeq t ++ writerOps sz ((startSeq + 2) % W) ts

/-- The shared state after the first j writer micro-operations. -/
def stateAt (s0 : Seqlock) (ops : List WOp) (j : Nat) : Seqlock :=
  runOps s0 (ops.take j)

/-- memcpy_out in the trace semantics: byte i is loaded at instant c i.
As in the sequential model, the second component is the value produced by a
return statement of the C++ function, which has none. -/
def memcpy_out_at (sz : Nat) (s0 : Seqlock) (ops : List WOp) (c : Nat → Nat)
    (value_out : List Nat) : List Nat × Option (List Nat) :=
  (copyLoopF (fun i => (stateAt s0 ops (c i)).data.getD i 0) value_out sz, none)

/-- try_load in the trace semantics: the first counter load happens at
instant t1, byte i of the copy at instant c i, the second counter load at
instant t2. -/
def try_load_at (sz : Nat) (s0 : Seqlock) (ops : List WOp)
    (t1 : Nat) (c : Nat → Nat) (t2 : Nat) (t : List Nat) : Bool × List Nat :=
  try_load_steps (stateAt s0 ops t1).seq (memcpy_out_at sz s0 ops c t)
    (stateAt s0 ops t2).seq t

/-- The m-th complete value published by the writer: the initial value for
m = 0, the value of the m-th store for m ≥ 1. -/
def publishedVal (s0 : Seqlock) (vs : List (List Nat)) (m : Nat) : List Nat :=
  (s0.data :: vs).getD m []

/-! ### Trace lemmas -/

lemma runOps_append (s : Seqlock) (a b : List WOp) :
    runOps s (a ++ b) = runOps (runOps s a) b :=
  List.foldl_append ..

lemma stateAt_nil (s : Seqlock) (j : Nat) : stateAt s [] j = s := by
  simp [stateAt, runOps]

lemma stateAt_append_le (s : Seqlock) (a b : List WOp) {j : Nat}
    (h : j ≤ a.length) : stateAt s (a ++ b) j = stateAt s a j := by
  simp [stateAt, List.take_append_of_le_length h]

lemma stateAt_append_ge (s : Seqlock) (a b : List WOp) {j : Nat}
    (h : a.length ≤ j) :
    stateAt s (a ++ b) j = stateAt (runOps s a) b (j - a.length) := by
  rw [stateAt, List.take_append_eq_append_take, List.take_of_length_le h,
    runOps_append]
  rfl

lemma byteOps_length (sz : Nat) (t : List Nat) :
    (byteOps sz t).length = sz := by
  simp [byteOps]

lemma storeOps_length (sz : Nat) (old_seq : Nat) (t : List Nat) :
    (storeOps sz old_seq t).length = sz + 2 := by
  simp [storeOps, byteOps]

/-- Folding the first n per-byte stores is the copy loop on the data,
leaving the counter alone. -/
lemma runOps_byte_block (s : Seqlock) (f : Nat → Nat) (n : Nat) :
    runOps s ((List.range n).map fun i => WOp.wbyte i (f i)) =
      { s with data := copyLoopF f s.data n } := by
  induction n with
  | zero => simp [runOps, copyLoopF]
  | succ n ih =>
    rw [List.range_succ, List.map_append, runOps_append, ih]
    simp [runOps, applyOp, copyLoopF]

lemma runOps_byteOps (sz : Nat) (s : Seqlock) (t : List Nat) :
    runOps s (byteOps sz t) =
      { s with data := copyLoopF (fun i => t.getD i 0) s.data sz } :=
  runOps_byte_block s _ sz

/-- The sequential store is exactly the composite of its micro-operations. -/
lemma store_eq_runOps (sz : Nat) (s : Seqlock) (t : List Nat) :
    store sz s t = runOps s (storeOps sz s.seq t) := by
  rw [storeOps]
  show store sz s t =
    runOps (applyOp s (WOp.wseq ((s.seq + 1) % W))) (byteOps sz t ++ _)
  rw [runOps_append, runOps_byteOps]
  simp [store, memcpy_in, copyLoop, applyOp, runOps]

/-- The state in the middle of one store block: instant 0 is the initial
state, instants 1..sz+1 have the odd counter and a partial byte copy, and
from instant sz+2 on the block is complete. -/
lemma stateAt_storeOps (sz : Nat) (s : Seqlock) (a : Nat) (t : List Nat)
    (j : Nat) :
    stateAt s (storeOps sz a t) j =
      if j = 0 then s
      else if j ≤ sz + 1 then
        { seq := (a + 1) % W,
          data := copyLoopF (fun i => t.getD i 0) s.data (j - 1) }
      else
        { seq := (a + 2) % W,
          data := copyLoopF (fun i => t.getD i 0) s.data sz } := by
  rcases j with _ | k
  · simp [stateAt, runOps]
  · have hcons : (storeOps sz a t).take (k + 1) =
        WOp.wseq ((a + 1) % W) :: (byteOps sz t ++ [WOp.wseq ((a + 2) % W)]).take k := by
      simp [storeOps]
    by_cases hk : k ≤ sz
    · have htk : (byteOps sz t ++ [WOp.wseq ((a + 2) % W)]).take k =
          (List.range k).map fun i => WOp.wbyte i (t.getD i 0) := by
        rw [List.take_append_of_le_length (by simp [byteOps_length]; omega),
          byteOps, ← List.map_take, List.take_range, Nat.min_eq_left hk]
      rw [stateAt, hcons, htk]
      show runOps (applyOp s (WOp.wseq ((a + 1) % W))) _ = _
      rw [runOps_byte_block, if_neg (by omega), if_pos (by omega)]
      simp [applyOp]
    · have hall : (byteOps sz t ++ [WOp.wseq ((a + 2) % W)]).take k =
          byteOps sz t ++ [WOp.wseq ((a + 2) % W)] := by
        apply List.take_of_length_le
        simp [byteOps_length]; omega
      rw [stateAt, hcons, hall]
      show runOps (applyOp s (WOp.wseq ((a + 1) % W)))
        (byteOps sz t ++ [WOp.wseq ((a + 2) % W)]) = _
      rw [runOps_append, runOps_byteOps, if_neg (by omega), if_neg (by omega)]
      simp [applyOp, runOps]

lemma stateAt_storeOps_seq (sz : Nat) (s : Seqlock) (a : Nat) (t : List Nat)
    (j : Nat) (hs : s.seq = a) (hW : a + 2 < W) :
    (stateAt s (storeOps sz a t) j).seq =
      if j = 0 then a else if j ≤ sz + 1 then a + 1 else a + 2 := by
  rw [stateAt_storeOps]
  have h1 : (a + 1) % W = a + 1 := Nat.mod_eq_of_lt (by omega)
  have h2 : (a + 2) % W = a + 2 := Nat.mod_eq_of_lt hW
  split_ifs <;> simp [hs, h1, h2]

lemma runOps_storeOps (sz : Nat) (s : Seqlock) (t : List Nat)
    (hd : s.data.length = sz) (ht : t.length = sz) :
    runOps s (storeOps sz s.seq t) = { seq := (s.seq + 2) % W, data := t } := by
  rw [← store_eq_runOps, store_spec sz s t hd ht]

lemma publishedVal_length (sz : Nat) (s0 : Seqlock) (vs : List (List Nat))
    (m : Nat) (hd : s0.data.length = sz) (hvs : ∀ t ∈ vs, t.length = sz)
    (hm : m ≤ vs.length) : (publishedVal s0 vs m).length = sz := by
  cases m with
  | zero => simpa [publishedVal] using hd
  | succ m =>
    have hlt : m < vs.length := by omega
    have hpv : publishedVal s0 vs (m + 1) = vs[m] := by
      rw [publishedVal, List.getD_cons_succ, List.getD_eq_getElem vs [] hlt]
    rw [hpv]
    exact hvs _ (List.getElem_mem hlt)

lemma publishedVal_cons_succ (s0 : Seqlock) (x : Nat) (t : List Nat)
    (ts : List (List Nat)) (m : Nat) :
    publishedVal s0 (t :: ts) (m + 1) =
      publishedVal { seq := x, data := t } ts m := by
  simp [publishedVal]

/-- The backbone invariant of the writer trace: the counter stays within
the window of this run, the storage keeps its size, and whenever the
counter is even the storage holds exactly the complete published value
determined by the counter. -/
lemma writer_trace_spec (sz : Nat) (vs : List (List Nat)) :
    ∀ (s0 : Seqlock) (a : Nat), s0.seq = a → a % 2 = 0 →
      s0.data.length = sz → (∀ t ∈ vs, t.length = sz) →
      a + 2 * vs.length < W → ∀ j,
      (a ≤ (stateAt s0 (writerOps sz a vs) j).seq ∧
        (stateAt s0 (writerOps sz a vs) j).seq ≤ a + 2 * vs.length) ∧
      (stateAt s0 (writerOps sz a vs) j).data.length = sz ∧
      ((stateAt s0 (writerOps sz a vs) j).seq % 2 = 0 →
        ∃ m, m ≤ vs.length ∧
          (stateAt s0 (writerOps sz a vs) j).seq = a + 2 * m ∧
          (stateAt s0 (writerOps sz a vs) j).data = publishedVal s0 vs m) := by
  induction vs with
  | nil =>
    intro s0 a hs ha hd hvs hW j
    rw [writerOps, stateAt_nil, hs]
    exact ⟨⟨le_refl _, by omega⟩, hd,
      fun _ => ⟨0, by omega, by omega, by simp [publishedVal]⟩⟩
  | cons t ts ih =>
    intro s0 a hs ha hd hvs hW j
    have ht : t.length = sz := hvs t (by simp)
    have hts : ∀ u ∈ ts, u.length = sz := fun u hu => hvs u (by simp [hu])
    have hWlt : a + 2 * (ts.length + 1) < W := by
      simpa [List.length_cons] using hW
    have hW1 : (a + 1) % W = a + 1 := Nat.mod_eq_of_lt (by omega)
    have hW2 : (a + 2) % W = a + 2 := Nat.mod_eq_of_lt (by omega)
    simp only [List.length_cons]
    rw [writerOps, hW2]
    by_cases hj : j ≤ sz + 2
    · rw [stateAt_append_le _ _ _ (by rw [storeOps_length]; omega)]
      rw [stateAt_storeOps sz s0 a t j]
      by_cases h0 : j = 0
      · rw [if_pos h0]
        refine ⟨⟨by omega, by omega⟩, hd, fun _ => ?_⟩
        exact ⟨0, by omega, by omega, by simp [publishedVal]⟩
      · by_cases h1 : j ≤ sz + 1
        · rw [if_neg h0, if_pos h1]
          refine ⟨⟨?_, ?_⟩, ?_, fun hpar => ?_⟩
          · show a ≤ (a + 1) % W
            rw [hW1]; omega
          · show (a + 1) % W ≤ a + 2 * (ts.length + 1)
            rw [hW1]; omega
          · show (copyLoopF (fun i => t.getD i 0) s0.data (j - 1)).length = sz
            rw [copyLoopF_length]; exact hd
          · have hpar' : (a + 1) % W % 2 = 0 := hpar
            rw [hW1] at hpar'; omega
        · rw [if_neg h0, if_neg h1]
          have hdata : copyLoopF (fun i => t.getD i 0) s0.data sz = t :=
            copyLoopF_eq_of_agree _ s0.data t sz hd ht (fun _ _ => rfl)
          refine ⟨⟨?_, ?_⟩, ?_, fun _ => ?_⟩
          · show a ≤ (a + 2) % W
            rw [hW2]; omega
          · show (a + 2) % W ≤ a + 2 * (ts.length + 1)
            rw [hW2]; omega
          · show (copyLoopF (fun i => t.getD i 0) s0.data sz).length = sz
            rw [copyLoopF_length]; exact hd
          · refine ⟨1, by omega, ?_, ?_⟩
            · show (a + 2) % W = a + 2 * 1
              rw [hW2]
            · show copyLoopF (fun i => t.getD i 0) s0.data sz =
                publishedVal s0 (t :: ts) 1
              rw [hdata]; simp [publishedVal]
    · rw [stateAt_append_ge _ _ _ (by rw [storeOps_length]; omega),
        storeOps_length]
      have hrun : runOps s0 (storeOps sz a t) = { seq := a + 2, data := t } := by
        rw [← hs, runOps_storeOps sz s0 t hd ht, hs, hW2]
      rw [hrun]
      obtain ⟨hbnd, hlen, hpar⟩ :=
        ih { seq := a + 2, data := t } (a + 2) rfl (by omega) ht hts
          (by omega) (j - (sz + 2))
      refine ⟨⟨by omega, by omega⟩, hlen, fun hp => ?_⟩
      obtain ⟨m, hm, hmseq, hmdata⟩ := hpar hp
      exact ⟨m + 1, by omega, by omega,
        by rw [hmdata, publishedVal_cons_succ s0 (a + 2) t ts m]⟩

/-- The sequence counter never decreases along the writer trace (no
wraparound occurs inside the window of the run). -/
lemma writer_seq_mono (sz : Nat) (vs : List (List Nat)) :
    ∀ (s0 : Seqlock) (a : Nat), s0.seq = a → a % 2 = 0 →
      s0.data.length = sz → (∀ t ∈ vs, t.length = sz) →
      a + 2 * vs.length < W → ∀ i j, i ≤ j →
      (stateAt s0 (writerOps sz a vs) i).seq ≤
        (stateAt s0 (writerOps sz a vs) j).seq := by
  induction vs with
  | nil =>
    intro s0 a hs ha hd hvs hW i j hij
    rw [writerOps, stateAt_nil, stateAt_nil]
  | cons t ts ih =>
    intro s0 a hs ha hd hvs hW i j hij
    have ht : t.length = sz := hvs t (by simp)
    have hts : ∀ u ∈ ts, u.length = sz := fun u hu => hvs u (by simp [hu])
    have hWlt : a + 2 * (ts.length + 1) < W := by
      simpa [List.length_cons] using hW
    have hW2 : (a + 2) % W = a + 2 := Nat.mod_eq_of_lt (by omega)
    rw [writerOps, hW2]
    have hrun : runOps s0 (storeOps sz a t) = { seq := a + 2, data := t } := by
      rw [← hs, runOps_storeOps sz s0 t hd ht, hs, hW2]
    by_cases hjb : j ≤ sz + 2
    · rw [stateAt_append_le _ _ _ (by rw [storeOps_length]; omega),
        stateAt_append_le _ _ _ (by rw [storeOps_length]; omega),
        stateAt_storeOps_seq sz s0 a t i hs (by omega),
        stateAt_storeOps_seq sz s0 a t j hs (by omega)]
      split_ifs <;> omega
    · by_cases hib : i ≤ sz + 2
      · rw [stateAt_append_le _ _ _ (by rw [storeOps_length]; omega),
          stateAt_append_ge _ _ _ (by rw [storeOps_length]; omega),
          storeOps_length, stateAt_storeOps_seq sz s0 a t i hs (by omega), hrun]
        have hlow := (writer_trace_spec sz ts { seq := a + 2, data := t }
          (a + 2) rfl (by omega) ht hts (by omega) (j - (sz + 2))).1.1
        split_ifs <;> omega
      · rw [stateAt_append_ge _ _ _ (by rw [storeOps_length]; omega),
          stateAt_append_ge _ _ _ (by rw [storeOps_length]; omega),
          storeOps_length, hrun]
        exact ih { seq := a + 2, data := t } (a + 2) rfl (by omega) ht hts
          (by omega) (i - (sz + 2)) (j - (sz + 2)) (by omega)

/-- Successful try_load forces: first counter load even, both counter loads
equal, and the slot holding the copied bytes. -/
lemma try_load_steps_true (seq1 : Nat) (mo : List Nat × Option (List Nat))
    (seq2 : Nat) (t out : List Nat)
    (h : try_load_steps seq1 mo seq2 t = (true, out)) :
    seq1 % 2 = 0 ∧ seq1 = seq2 ∧ out = mo.1 := by
  rw [try_load_steps] at h
  by_cases hp : seq1 % 2 = 0
  · rw [if_neg (by omega)] at h
    simp only [Prod.mk.injEq, decide_eq_true_eq] at h
    exact ⟨hp, h.1, h.2.symm⟩
  · rw [if_pos (by omega)] at h
    simp at h

/-! ### The claims -/

/-- C1: single-thread round trip: from any quiescent well-formed state
(counter even, byte storage of size sz), storing the byte image v of a value
and then loading returns exactly v, byte for byte. -/
theorem c1_store_load_roundtrip (sz : Nat) (s : Seqlock) (v : List Nat)
    (hpar : s.seq % 2 = 0) (hd : s.data.length = sz) (hv : v.length = sz) :
    load sz 1 (store sz s v) = some v := by
  rw [store_spec sz s v hd hv]
  refine load_one sz _ ?_ hv
  show (s.seq + 2) % W % 2 = 0
  rw [add_two_mod_W_parity]
  exact hpar

theorem c1_witness :
    (0 : Nat) % 2 = 0 ∧
    load 2 1 (store 2 { seq := 0, data := [0, 0] } [3, 4]) = some [3, 4] :=
  ⟨rfl, c1_store_load_roundtrip 2 { seq := 0, data := [0, 0] } [3, 4]
    rfl rfl rfl⟩

/-- C2: try_load first loads the counter; if odd it fails at once with no
byte copy (the slot is untouched); if even it copies the bytes out, loads
the counter a second time, and succeeds iff the two counter loads are equal.
In particular a try_load that runs entirely while a store is paused anywhere
strictly between its two counter increments returns false. -/
theorem c2_try_load_protocol (sz : Nat) :
    (∀ (s0 : Seqlock) (ops : List WOp) (t1 : Nat) (c : Nat → Nat) (t2 : Nat)
        (slot : List Nat), ¬(stateAt s0 ops t1).seq % 2 = 0 →
      try_load_at sz s0 ops t1 c t2 slot = (false, slot)) ∧
    (∀ (s0 : Seqlock) (ops : List WOp) (t1 : Nat) (c : Nat → Nat) (t2 : Nat)
        (slot : List Nat), (stateAt s0 ops t1).seq % 2 = 0 →
      try_load_at sz s0 ops t1 c t2 slot =
        (decide ((stateAt s0 ops t1).seq = (stateAt s0 ops t2).seq),
          (memcpy_out_at sz s0 ops c slot).1)) ∧
    (∀ (s : Seqlock) (a : Nat) (v slot : List Nat) (j : Nat),
      s.seq = a → a % 2 = 0 → a + 2 < W → 1 ≤ j → j ≤ sz + 1 →
      try_load sz (stateAt s (storeOps sz a v) j) slot = (false, slot)) := by
  refine ⟨?_, ?_, ?_⟩
  · intro s0 ops t1 c t2 slot hodd
    rw [try_load_at, try_load_steps, if_pos hodd]
  · intro s0 ops t1 c t2 slot heven
    rw [try_load_at, try_load_steps, if_neg (not_not_intro heven)]
  · intro s a v slot j hs ha hW h1 h2
    have hseq := stateAt_storeOps_seq sz s a v j hs hW
    rw [if_neg (by omega), if_pos h2] at hseq
    exact try_load_odd sz _ slot (by rw [hseq]; omega)

theorem c2_witness :
    try_load 1 (stateAt { seq := 2, data := [9] } (storeOps 1 2 [7]) 1) [5] =
      (false, [5]) :=
  (c2_try_load_protocol 1).2.2 { seq := 2, data := [9] } 2 [7] [5] 1
    rfl (by decide) (by decide) (by decide) (by decide)

/-- C3: store performs exactly the steps: load the counter, store
counter + 1, copy the bytes in, store counter + 2; each completed store
advances the counter by exactly 2 (modulo the width W of size_t); and along
a writer run that does not wrap the counter never decreases. -/
theorem c3_store_counter (sz : Nat) :
    (∀ (s : Seqlock) (t : List Nat),
      store sz s t = runOps s (storeOps sz s.seq t)) ∧
    (∀ (a : Nat) (t : List Nat), storeOps sz a t =
      WOp.wseq ((a + 1) % W) :: (byteOps sz t ++ [WOp.wseq ((a + 2) % W)])) ∧
    (∀ (s : Seqlock) (t : List Nat), (store sz s t).seq = (s.seq + 2) % W) ∧
    (∀ (s0 : Seqlock) (a : Nat) (vs : List (List Nat)),
      s0.seq = a → a % 2 = 0 → s0.data.length = sz →
      (∀ t ∈ vs, t.length = sz) → a + 2 * vs.length < W →
      ∀ i j, i ≤ j → (stateAt s0 (writerOps sz a vs) i).seq ≤
        (stateAt s0 (writerOps sz a vs) j).seq) :=
  ⟨store_eq_runOps sz, fun _ _ => rfl, fun _ _ => rfl,
    fun s0 a vs hs ha hd hvs hW => writer_seq_mono sz vs s0 a hs ha hd hvs hW⟩

theorem c3_witness :
    (stateAt { seq := 0, data := [1] } (writerOps 1 0 [[5]]) 0).seq ≤
      (stateAt { seq := 0, data := [1] } (writerOps 1 0 [[5]]) 3).seq :=
  (c3_store_counter 1).2.2.2 { seq := 0, data := [1] } 0 [[5]]
    rfl (by decide) (by decide) (by decide) (by decide) 0 3 (by decide)

/-- C4: the counter is even iff no write is in progress: every state
reachable by completed operations has an even counter; during a store the
counter is odd exactly at the instants strictly between its two counter
stores; and a successful try_load observed an even first counter value. -/
theorem c4_parity_invariant (sz : Nat) :
    (∀ s, Reachable sz s → s.seq % 2 = 0) ∧
    (∀ (s : Seqlock) (a : Nat) (v : List Nat) (j : Nat), s.seq = a →
      a % 2 = 0 → a + 2 < W →
      ((stateAt s (storeOps sz a v) j).seq % 2 = 1 ↔ 1 ≤ j ∧ j ≤ sz + 1)) ∧
    (∀ (seq1 : Nat) (mo : List Nat × Option (List Nat)) (seq2 : Nat)
        (slot : List Nat),
      (try_load_steps seq1 mo seq2 slot).1 = true → seq1 % 2 = 0) := by
  refine ⟨fun s h => (reachable_invariant sz s h).1, ?_, ?_⟩
  · intro s a v j hs ha hW
    rw [stateAt_storeOps_seq sz s a v j hs hW]
    split_ifs with h0 h1 <;> omega
  · intro seq1 mo seq2 slot h
    by_cases hp : seq1 % 2 = 0
    · exact hp
    · rw [try_load_steps, if_pos (by omega)] at h
      simp at h

theorem c4_witness :
    (seqlock_object 1 [3]).seq % 2 = 0 :=
  (c4_parity_invariant 1).1 _ (Reachable.construct [3] rfl)

/-- C5: no tear: with one writer performing the stores vs from a quiescent
initial state, every successful concurrent try_load (its three observation
instants placed anywhere in the trace with the byte reads between the two
counter reads) returns exactly one of the published complete values, namely
the one determined by the counter value it observed, never a byte mixture;
and the counter observations are non-decreasing over time, so successive
successful reads observe the published values in the writer's order. -/
theorem c5_no_tear (sz : Nat) (s0 : Seqlock) (a : Nat) (vs : List (List Nat))
    (hs : s0.seq = a) (ha : a % 2 = 0) (hd : s0.data.length = sz)
    (hvs : ∀ t ∈ vs, t.length = sz) (hW : a + 2 * vs.length < W)
    (t1 t2 : Nat) (c : Nat → Nat) (slot out : List Nat)
    (hc : ∀ i, i < sz → t1 ≤ c i ∧ c i ≤ t2)
    (hslot : slot.length = sz)
    (hsucc : try_load_at sz s0 (writerOps sz a vs) t1 c t2 slot = (true, out)) :
    (∃ m, m ≤ vs.length ∧
      (stateAt s0 (writerOps sz a vs) t1).seq = a + 2 * m ∧
      out = publishedVal s0 vs m) ∧
    (∀ u u', u ≤ u' → (stateAt s0 (writerOps sz a vs) u).seq ≤
      (stateAt s0 (writerOps sz a vs) u').seq) := by
  have hmono := writer_seq_mono sz vs s0 a hs ha hd hvs hW
  rw [try_load_at] at hsucc
  obtain ⟨hpar, heq, hout⟩ := try_load_steps_true _ _ _ _ _ hsucc
  refine ⟨?_, hmono⟩
  have hconst : ∀ u, t1 ≤ u → u ≤ t2 →
      (stateAt s0 (writerOps sz a vs) u).seq =
        (stateAt s0 (writerOps sz a vs) t1).seq := by
    intro u hu1 hu2
    have l1 := hmono t1 u hu1
    have l2 := hmono u t2 hu2
    omega
  obtain ⟨m, hm, hmseq, hmdata⟩ :=
    (writer_trace_spec sz vs s0 a hs ha hd hvs hW t1).2.2 hpar
  refine ⟨m, hm, hmseq, ?_⟩
  rw [hout]
  show copyLoopF (fun i => (stateAt s0 (writerOps sz a vs) (c i)).data.getD i 0)
    slot sz = publishedVal s0 vs m
  apply copyLoopF_eq_of_agree _ slot _ sz hslot
    (publishedVal_length sz s0 vs m hd hvs hm)
  intro i hi
  have hci := hc i hi
  have hcieq : (stateAt s0 (writerOps sz a vs) (c i)).seq =
      (stateAt s0 (writerOps sz a vs) t1).seq := hconst (c i) hci.1 hci.2
  obtain ⟨mi, hmi, hmiseq, hmidata⟩ :=
    (writer_trace_spec sz vs s0 a hs ha hd hvs hW (c i)).2.2
      (by rw [hcieq]; exact hpar)
  have hmim : mi = m := by omega
  rw [hmidata, hmim]

theorem c5_witness :
    (∃ m, m ≤ [[7]].length ∧
      (stateAt { seq := 2, data := [9] } (writerOps 1 2 [[7]]) 0).seq =
        2 + 2 * m ∧
      [9] = publishedVal { seq := 2, data := [9] } [[7]] m) ∧
    (∀ u u', u ≤ u' →
      (stateAt { seq := 2, data := [9] } (writerOps 1 2 [[7]]) u).seq ≤
        (stateAt { seq := 2, data := [9] } (writerOps 1 2 [[7]]) u').seq) :=
  c5_no_tear 1 { seq := 2, data := [9] } 2 [[7]] rfl (by decide) (by decide)
    (by decide) (by decide) 0 0 (fun _ => 0) [0] [9] (by decide)
    (by decide) (by decide)

/-- C6: load is the retry loop over try_load; it never returns a failure
value, and in a quiescent state with even counter a single try_load attempt
already succeeds and returns the stored bytes, for any fuel. -/
theorem c6_load_spec (sz : Nat) :
    (∀ (s : Seqlock) (fuel : Nat), load sz (fuel + 1) s =
      (if (try_load sz s (List.replicate sz 0)).1
        then some (try_load sz s (List.replicate sz 0)).2
        else load sz fuel s)) ∧
    (∀ s : Seqlock, s.seq % 2 = 0 → s.data.length = sz →
      ∀ fuel, load sz (fuel + 1) s = some s.data) := by
  refine ⟨fun s fuel => rfl, fun s hpar hd fuel => ?_⟩
  have hcopy : copyLoop s.data (List.replicate sz 0) sz = s.data :=
    copyLoop_eq s.data _ sz (by simp) hd
  simp [load, try_load_even sz s _ hpar, hcopy]

theorem c6_witness :
    load 2 1 { seq := 4, data := [1, 2] } = some [1, 2] :=
  (c6_load_spec 2).2 { seq := 4, data := [1, 2] } (by decide) (by decide) 0

/-- C7: both constructors install the initial value through the ordinary
store protocol: the constructed object is exactly store applied to the
fresh object, its counter is 2 as after any first store, and load returns
the construction argument (the default constructor passes the byte image of
a default constructed T). -/
theorem c7_constructor (sz : Nat) (v : List Nat) (hv : v.length = sz) :
    seqlock_object sz v = store sz { seq := 0, data := List.replicate sz 0 } v ∧
    (seqlock_object sz v).seq = 2 ∧
    load sz 1 (seqlock_object sz v) = some v := by
  refine ⟨rfl, ?_, ?_⟩
  · rw [seqlock_object, store_spec sz _ v (by simp) hv]
    show (0 + 2) % W = 2
    rw [Nat.zero_add, Nat.mod_eq_of_lt (by norm_num [W])]
  · rw [seqlock_object, store_spec sz _ v (by simp) hv]
    refine load_one sz _ ?_ hv
    show (0 + 2) % W % 2 = 0
    rw [add_two_mod_W_parity]

theorem c7_witness :
    [3, 4].length = 2 ∧
    (seqlock_object 2 [3, 4] =
      store 2 { seq := 0, data := List.replicate 2 0 } [3, 4] ∧
    (seqlock_object 2 [3, 4]).seq = 2 ∧
    load 2 1 (seqlock_object 2 [3, 4]) = some [3, 4]) :=
  ⟨rfl, c7_constructor 2 [3, 4] rfl⟩

/-- C8: storing the same value twice in succession leaves load returning
that value, and the counter advances by 4 in total, 2 per store, even
though the stored value is unchanged. -/
theorem c8_store_twice (sz : Nat) (s : Seqlock) (v : List Nat)
    (hpar : s.seq % 2 = 0) (hd : s.data.length = sz) (hv : v.length = sz) :
    load sz 1 (store sz (store sz s v) v) = some v ∧
    (store sz (store sz s v) v).seq = (s.seq + 4) % W := by
  constructor
  · rw [store_spec sz s v hd hv, store_spec sz _ v hv hv]
    refine load_one sz _ ?_ hv
    show ((s.seq + 2) % W + 2) % W % 2 = 0
    rw [Nat.mod_add_mod, Nat.mod_mod_of_dvd _ (by norm_num [W] : (2:Nat) ∣ W)]
    omega
  · show ((s.seq + 2) % W + 2) % W = (s.seq + 4) % W
    rw [Nat.mod_add_mod, Nat.add_assoc]

theorem c8_witness :
    load 1 1 (store 1 (store 1 { seq := 0, data := [0] } [5]) [5]) = some [5] ∧
    (store 1 (store 1 { seq := 0, data := [0] } [5]) [5]).seq = (0 + 4) % W :=
  c8_store_twice 1 { seq := 0, data := [0] } [5] rfl rfl rfl

/-- C9: when try_load fails because its two counter loads differ, the
caller's slot has already been overwritten with the copied (possibly torn)
bytes; only the early odd-counter return leaves the slot untouched; so the
slot is not guaranteed unchanged on failure, witnessed by a trace where the
failed call hands back bytes different from the slot's old contents. -/
theorem c9_failure_overwrites :
    (∀ (seq1 : Nat) (mo : List Nat × Option (List Nat)) (seq2 : Nat)
        (slot : List Nat), seq1 % 2 = 0 → seq1 ≠ seq2 →
      try_load_steps seq1 mo seq2 slot = (false, mo.1)) ∧
    (∀ (seq1 : Nat) (mo : List Nat × Option (List Nat)) (seq2 : Nat)
        (slot : List Nat), seq1 % 2 = 1 →
      try_load_steps seq1 mo seq2 slot = (false, slot)) ∧
    (∃ (s0 : Seqlock) (ops : List WOp) (t1 : Nat) (c : Nat → Nat) (t2 : Nat)
        (slot r : List Nat),
      try_load_at 1 s0 ops t1 c t2 slot = (false, r) ∧ r ≠ slot) := by
  refine ⟨?_, ?_, ?_⟩
  · intro seq1 mo seq2 slot hpar hne
    rw [try_load_steps, if_neg (by omega)]
    simp [hne]
  · intro seq1 mo seq2 slot hodd
    rw [try_load_steps, if_pos (by omega)]
  · exact ⟨{ seq := 0, data := [5] }, storeOps 1 0 [7], 0, fun _ => 2, 3,
      [0], [7], by decide, by decide⟩

theorem c9_witness :
    try_load_steps 2 ([7], none) 4 [0] = (false, [7]) :=
  c9_failure_overwrites.1 2 ([7], none) 4 [0] (by decide) (by decide)

/-- C10: memcpy_out is declared with return type T, but no path of its body
contains a return statement: the modelled return-value component is none for
every input, in the sequential and in the trace semantics alike, even though
the byte copy into the out slot is performed. -/
theorem c10_memcpy_out_no_return (sz : Nat) :
    (∀ data value_out : List Nat, (memcpy_out sz data value_out).2 = none) ∧
    (∀ (s0 : Seqlock) (ops : List WOp) (c : Nat → Nat) (value_out : List Nat),
      (memcpy_out_at sz s0 ops c value_out).2 = none) :=
  ⟨fun _ _ => rfl, fun _ _ _ _ => rfl⟩

end Crill
